import Mathlib

/-!
Shallow embedding of `nltk/sem/logic.py`: a first-order predicate logic on top
of the untyped lambda calculus, with capture-avoiding substitution
(`replace`), alpha-conversion, equality modulo alphabetic variance (`==`),
beta-reduction (`simplify`), pretty-printing (`__str__` / `__repr__`), and the
recursive-descent `LogicParser`.

Modelling conventions:
- The class hierarchy becomes one inductive `Expr`; `LambdaExpression`,
  `ExistsExpression` and `AllExpression` (subclasses of
  `VariableBinderExpression`) become `Expr.binder` with a `BinderKind`, and
  the five subclasses of `BooleanExpression` become `Expr.boolE` with a
  `BoolKind`.
- Variable names are strings; per the data model every binder's variable
  slot holds a variable name.
- The process-wide fresh-name counter (`nltk.internals.Counter`, not part of
  the sources here) is threaded explicitly as a `Nat` state, modelled from
  the spec: a monotonic counter whose `get` advances and returns the new
  value; `unique_variable` produces the name `"z" ++ decimal value`.
- The recursive operations are written with an explicit fuel argument,
  structurally recursive on the fuel, so that they evaluate by kernel
  reduction.  Fuel exhaustion is `none` / a distinguished error, never a
  wrong answer.  `shapeOk f e` says that fuel `f` covers the recursion
  pattern on `e`; sufficient fuel always exists (`shapeOk_exists`), results
  do not depend on which sufficient fuel is used, and with sufficient fuel
  the operations of the source that are total (`free`, `replace`,
  `alpha_convert`, `==`) always return a value (the adequacy theorems
  below), mirroring their totality in the source.
-/

namespace NLTK

inductive BinderKind where
  | lam
  | ex
  | all
deriving DecidableEq

inductive BoolKind where
  | and
  | or
  | imp
  | iff
  | eq
deriving DecidableEq

/-- The Expression AST of `logic.py`:
`var` = `VariableExpression`, `app` = `ApplicationExpression` (a function and
a list of arguments), `binder` = `LambdaExpression` / `ExistsExpression` /
`AllExpression`, `neg` = `NegatedExpression`, `boolE` = the five subclasses
of `BooleanExpression`. -/
inductive Expr where
  | var (name : String)
  | app (fn : Expr) (args : List Expr)
  | binder (k : BinderKind) (v : String) (body : Expr)
  | neg (body : Expr)
  | boolE (k : BoolKind) (a b : Expr)

/-- `Expression.unique_variable`: the fresh name `'z' + str(_counter.get())`.
Modelled from the spec: `nltk.internals.Counter` is not under the sources;
§4.3 specifies a monotonic counter and names formed by prefixing `z` to the
decimal value.  With counter state `c`, `get` yields `c + 1`. -/
def zname (n : Nat) : String := "z" ++ toString n

/-- Fuel-coverage check: `shapeOkList rec l` holds when `rec` accepts every
element of `l`.  Used with `rec := shapeOk f`. -/
def shapeOkList (rec : Expr → Bool) : List Expr → Bool
  | [] => true
  | a :: as => rec a && shapeOkList rec as

/-- `shapeOk f e`: fuel `f` covers the recursion pattern of the fueled
operations on `e` (one unit of fuel per node along every descent, arguments
of an application at the same fuel as the application's function). -/
def shapeOk : Nat → Expr → Bool
  | 0, _ => false
  | f + 1, e =>
    match e with
    | .var _ => true
    | .app fn args => shapeOk f fn && shapeOkList (shapeOk f) args
    | .binder _ _ t => shapeOk f t
    | .neg t => shapeOk f t
    | .boolE _ a b => shapeOk f a && shapeOk f b

/-- List part of `free()`: union (as membership) of the free variables of the
elements, threaded through a caller-supplied recursive call. -/
def freeList (rec : Expr → Option (List String)) : List Expr → Option (List String)
  | [] => some []
  | a :: as =>
    match rec a with
    | none => none
    | some l1 =>
      match freeList rec as with
      | none => none
      | some l2 => some (l1 ++ l2)

/-- Fueled `free()`.  `Var`: the singleton; `App`: function plus arguments;
binders subtract their bound variable; `Not` passes through; the binary
connectives take the union of both sides.  The sets of
`VariableExpression`s of the source are modelled as lists of names, which
agrees on membership. -/
def freeVarsF : Nat → Expr → Option (List String)
  | 0, _ => none
  | f + 1, e =>
    match e with
    | .var u => some [u]
    | .app fn args =>
      match freeVarsF f fn with
      | none => none
      | some l1 =>
        match freeList (freeVarsF f) args with
        | none => none
        | some l2 => some (l1 ++ l2)
    | .binder _ u t =>
      match freeVarsF f t with
      | none => none
      | some l => some (l.filter (fun w => w ≠ u))
    | .neg t => freeVarsF f t
    | .boolE _ a b =>
      match freeVarsF f a with
      | none => none
      | some l1 =>
        match freeVarsF f b with
        | none => none
        | some l2 => some (l1 ++ l2)

/-- The variable slot a binder receives in the `replace_bound=True` branch of
`VariableBinderExpression.replace`.  The source stores `expression` itself
there; in this AST binder slots are names (the data-model invariant), so the
name is taken from `expression` — which is always a `VariableExpression` at
the only call site of that branch, `alpha_convert`. -/
def newBinderName (x : Expr) (u : String) : String :=
  match x with
  | .var w => w
  | _ => u

/-- List part of `ApplicationExpression.replace`: replace in each argument in
order, threading the counter. -/
def replaceList (rec : Expr → Nat → Option (Expr × Nat)) :
    List Expr → Nat → Option (List Expr × Nat)
  | [], c => some ([], c)
  | a :: as, c =>
    match rec a c with
    | none => none
    | some (a1, c1) =>
      match replaceList rec as c1 with
      | none => none
      | some (l, c2) => some (a1 :: l, c2)

/-- Fueled `replace(variable, expression, replace_bound)` with the counter
state threaded.  The source evaluates `expression.free()` afresh at each
binder; since `expression` is passed through the recursion unchanged, its
free-variable list is precomputed by the caller and passed as `fvx` (the
internal alpha-conversion call substitutes the fresh variable, whose free
list is its singleton).  On a binder with bound variable `u`: if
`u == variable` the substitution is shadowed (or, with `replace_bound=True`,
the binder slot itself is replaced); otherwise, if `u` appears free in
`expression`, the binder is first alpha-converted to the fresh
counter-generated variable
(`self = self.alpha_convert(self.unique_variable())`, i.e. a recursive
`replace` of `u` by the fresh variable with `replace_bound=True`), and then
`replace` recurses into the renamed body with the original arguments. -/
def replaceF : Nat → Expr → String → Expr → List String → Bool → Nat → Option (Expr × Nat)
  | 0, _, _, _, _, _, _ => none
  | f + 1, e, v, x, fvx, rb, c =>
    match e with
    | .var u => some (if u = v then x else .var u, c)
    | .app fn args =>
      match replaceF f fn v x fvx rb c with
      | none => none
      | some (fn1, c1) =>
        match replaceList (fun a cc => replaceF f a v x fvx rb cc) args c1 with
        | none => none
        | some (args1, c2) => some (.app fn1 args1, c2)
    | .binder k u t =>
      if u = v then
        if rb then
          match replaceF f t v x fvx true c with
          | none => none
          | some (t1, c1) => some (.binder k (newBinderName x u) t1, c1)
        else some (.binder k u t, c)
      else
        if u ∈ fvx then
          match replaceF f t u (.var (zname (c + 1))) [zname (c + 1)] true (c + 1) with
          | none => none
          | some (t1, c1) =>
            match replaceF f t1 v x fvx rb c1 with
            | none => none
            | some (t2, c2) => some (.binder k (zname (c + 1)) t2, c2)
        else
          match replaceF f t v x fvx rb c with
          | none => none
          | some (t1, c1) => some (.binder k u t1, c1)
    | .neg t =>
      match replaceF f t v x fvx rb c with
      | none => none
      | some (t1, c1) => some (.neg t1, c1)
    | .boolE k a b =>
      match replaceF f a v x fvx rb c with
      | none => none
      | some (a1, c1) =>
        match replaceF f b v x fvx rb c1 with
        | none => none
        | some (b1, c2) => some (.boolE k a1 b1, c2)

/-- `VariableBinderExpression.alpha_convert(newvar)` on the binder
`binder k u t`: rebuild with `newvar` and `term.replace(variable, newvar, True)`;
the free list of a variable is its singleton. -/
def alphaConvertF (f : Nat) (k : BinderKind) (u : String) (t : Expr) (w : String)
    (c : Nat) : Option (Expr × Nat) :=
  match replaceF f t u (.var w) [w] true c with
  | none => none
  | some (t1, c1) => some (.binder k w t1, c1)

/-- List part of `==` on argument lists: Python list equality — equal lengths
and pairwise `==`, stopping at the first mismatch. -/
def beqList (rec : Expr → Expr → Nat → Option (Bool × Nat)) :
    List Expr → List Expr → Nat → Option (Bool × Nat)
  | [], [], c => some (true, c)
  | [], _ :: _, c => some (false, c)
  | _ :: _, [], c => some (false, c)
  | a :: as, b :: bs, c =>
    match rec a b c with
    | none => none
    | some (r, c1) => if r then beqList rec as bs c1 else some (false, c1)

/-- Fueled `==` (equality modulo alphabetic variance) with the counter
threaded (the binder case calls `replace`, which may draw fresh names).
`Binder(u, M) == Binder(u2, N)` compares `M == N` when the classes match and
`u == u2`, and otherwise `M == N.replace(u2, u)` (relabelling `u2` in `N`
with `u`; `replace_bound` defaults to `False` and the free list of the
variable `u` is its singleton).  All other variants compare structurally,
with the `isinstance` class check first and Python's short-circuit `and`. -/
def beqF : Nat → Expr → Expr → Nat → Option (Bool × Nat)
  | 0, _, _, _ => none
  | f + 1, a, b, c =>
    match a with
    | .var u =>
      match b with
      | .var w => some (decide (u = w), c)
      | _ => some (false, c)
    | .app fn args =>
      match b with
      | .app fn2 args2 =>
        match beqF f fn fn2 c with
        | none => none
        | some (r, c1) => if r then beqList (beqF f) args args2 c1 else some (false, c1)
      | _ => some (false, c)
    | .binder k u t =>
      match b with
      | .binder k2 u2 t2 =>
        if k = k2 then
          if u = u2 then beqF f t t2 c
          else
            match replaceF f t2 u2 (.var u) [u] false c with
            | none => none
            | some (t2r, c1) => beqF f t t2r c1
        else some (false, c)
      | _ => some (false, c)
    | .neg t =>
      match b with
      | .neg t2 => beqF f t t2 c
      | _ => some (false, c)
    | .boolE k x y =>
      match b with
      | .boolE k2 x2 y2 =>
        if k = k2 then
          match beqF f x x2 c with
          | none => none
          | some (r, c1) => if r then beqF f y y2 c1 else some (false, c1)
        else some (false, c)
      | _ => some (false, c)

/-- List part of `simplify` on argument lists (the non-lambda branch of
`ApplicationExpression.simplify`). -/
def simplifyList (rec : Expr → Nat → Option (Expr × Nat)) :
    List Expr → Nat → Option (List Expr × Nat)
  | [], c => some ([], c)
  | a :: as, c =>
    match rec a c with
    | none => none
    | some (a1, c1) =>
      match simplifyList rec as c1 with
      | none => none
      | some (l, c2) => some (a1 :: l, c2)

/-- The argument loop of `ApplicationExpression.simplify` once the simplified
function is a `LambdaExpression`: for each argument, if the accumulator is
still a lambda, beta-step via
`accum.term.replace(accum.variable, arg.simplify()).simplify()`; otherwise
wrap the simplified argument as a one-argument application.  The free list
of the simplified argument (needed by `replace`) is computed at fuel `g`. -/
def simplifyApps (rec : Expr → Nat → Option (Expr × Nat)) :
    Nat → Expr → List Expr → Nat → Option (Expr × Nat)
  | 0, _, _, _ => none
  | g + 1, accum, args, c =>
    match args with
    | [] => some (accum, c)
    | a :: rest =>
      match accum with
      | .binder .lam u t =>
        match rec a c with
        | none => none
        | some (a1, c1) =>
          match freeVarsF (g + 1) a1 with
          | none => none
          | some fva =>
            match replaceF (g + 1) t u a1 fva false c1 with
            | none => none
            | some (t1, c2) =>
              match rec t1 c2 with
              | none => none
              | some (t2, c3) => simplifyApps rec g t2 rest c3
      | _ =>
        match rec a c with
        | none => none
        | some (a1, c1) => simplifyApps rec g (.app accum [a1]) rest c1

/-- Fueled `simplify`.  `Var` and `Not` return themselves; binders and the
binary connectives recurse into their children; an application simplifies its
function and, when the result is a `LambdaExpression`, beta-reduces through
the argument list. -/
def simplifyF : Nat → Expr → Nat → Option (Expr × Nat)
  | 0, _, _ => none
  | f + 1, e, c =>
    match e with
    | .var u => some (.var u, c)
    | .neg t => some (.neg t, c)
    | .binder k u t =>
      match simplifyF f t c with
      | none => none
      | some (t1, c1) => some (.binder k u t1, c1)
    | .boolE k a b =>
      match simplifyF f a c with
      | none => none
      | some (a1, c1) =>
        match simplifyF f b c1 with
        | none => none
        | some (b1, c2) => some (.boolE k a1 b1, c2)
    | .app fn args =>
      match simplifyF f fn c with
      | none => none
      | some (accum, c1) =>
        match accum with
        | .binder .lam _ _ => simplifyApps (simplifyF f) f accum args c1
        | _ =>
          match simplifyList (simplifyF f) args c1 with
          | none => none
          | some (args1, c2) => some (.app accum args1, c2)

/-- The operator lexeme of each `BooleanExpression` subclass in the active
syntax flavor (`n = 1`, the symbolic `NEW_NLTK` flavor). -/
def opStr : BoolKind → String
  | .and => "&"
  | .or => "|"
  | .imp => "->"
  | .iff => "<->"
  | .eq => "="

/-- Python class name of each variant, as used by `__repr__`. -/
def className : Expr → String
  | .var _ => "VariableExpression"
  | .app _ _ => "ApplicationExpression"
  | .binder .lam _ _ => "LambdaExpression"
  | .binder .ex _ _ => "ExistsExpression"
  | .binder .all _ _ => "AllExpression"
  | .neg _ => "NegatedExpression"
  | .boolE .and _ _ => "AndExpression"
  | .boolE .or _ _ => "OrExpression"
  | .boolE .imp _ _ => "ImpExpression"
  | .boolE .iff _ _ => "IffExpression"
  | .boolE .eq _ _ => "EqualityExpression"

/-- List part of `__str__` for argument lists. -/
def strList (rec : Expr → Option String) : List Expr → Option (List String)
  | [] => some []
  | a :: as =>
    match rec a with
    | none => none
    | some s =>
      match strList rec as with
      | none => none
      | some l => some (s :: l)

/-- Fueled `__str__` in the active flavor (`n = 1`).  An application prints
`f(x1,...,xn)`, wrapping `f` in parentheses when `f` is an application, or
when `f` is a lambda whose body is neither an application with a
`VariableExpression` function nor a `BooleanExpression`.  A lambda prints
`\v.body`; quantifiers print `exists v.body` / `all v.body`; negation prints
`-body` (no parentheses); connectives print `(left OP right)`. -/
def strF : Nat → Expr → Option String
  | 0, _ => none
  | f + 1, e =>
    match e with
    | .var u => some u
    | .binder .lam v t =>
      match strF f t with
      | none => none
      | some s => some ("\\" ++ v ++ "." ++ s)
    | .binder .ex v t =>
      match strF f t with
      | none => none
      | some s => some ("exists " ++ v ++ "." ++ s)
    | .binder .all v t =>
      match strF f t with
      | none => none
      | some s => some ("all " ++ v ++ "." ++ s)
    | .neg t =>
      match strF f t with
      | none => none
      | some s => some ("-" ++ s)
    | .boolE k a b =>
      match strF f a with
      | none => none
      | some sa =>
        match strF f b with
        | none => none
        | some sb => some ("(" ++ sa ++ " " ++ opStr k ++ " " ++ sb ++ ")")
    | .app fn args =>
      match strF f fn with
      | none => none
      | some sf =>
        match strList (strF f) args with
        | none => none
        | some sargs =>
          let wrapped :=
            match fn with
            | .binder .lam _ t =>
              match t with
              | .app tf _ =>
                match tf with
                | .var _ => sf
                | _ => "(" ++ sf ++ ")"
              | .boolE _ _ _ => sf
              | _ => "(" ++ sf ++ ")"
            | .app _ _ => "(" ++ sf ++ ")"
            | _ => sf
          some (wrapped ++ "(" ++ String.intercalate "," sargs ++ ")")

/-- Fueled `__repr__`: the class name, a colon-space, then `__str__`. -/
def reprF (f : Nat) (e : Expr) : Option String :=
  match strF f e with
  | none => none
  | some s => some (className e ++ ": " ++ s)

/-- `Tokens.TOKENS` = `BINOPS + QUANTS + LAMBDA + PUNCT + NOT`, the reserved
lexemes across all three syntax flavors (duplicates as in the source). -/
def allTokens : List String :=
  ["and", "&", "or", "|", "implies", "->", "iff", "<->", "=", "=", "=",
   "some", "exists", "exists", "all", "all", "all",
   "\\", "\\", "\\", ".", "(", ")", ",", "not", "-", "-"]

/-- `LogicParser.isvariable`: a token is a variable iff it is not reserved. -/
def isVarTok (tok : String) : Bool := decide (tok ∉ allTokens)

/-- `Tokens.SYMBOLS` = `LAMBDA + PUNCT + [AND[1], OR[1], NOT[1], IMP[1], IFF[1]] + EQ`:
the lexemes the preprocessing trie is built from. -/
def symbolsL : List (List Char) :=
  [['\\'], ['\\'], ['\\'], ['.'], ['('], [')'], [','],
   ['&'], ['|'], ['-'], ['-', '>'], ['<', '-', '>'], ['='], ['='], ['=']]

/-- Whether `p` is a leading segment of `s` (used to test whether a string of
characters is a path in the symbol trie, i.e. a prefix of some symbol). -/
def charsLe : List Char → List Char → Bool
  | [], _ => true
  | _ :: _, [] => false
  | a :: as, b :: bs => (a == b) && charsLe as bs

/-- Whether the trie walk of `LogicParser.process` can stand at `p`: `p` is a
path in the trie of `symbolsL`, i.e. a leading segment of some symbol. -/
def isSymPath (p : List Char) : Bool := symbolsL.any (fun s => charsLe p s)

/-- `LogicParser.process`: walk the input; from each position greedily extend
a token while the next character keeps it a path in the symbol trie (symbols
have at most three characters); a matched token is emitted surrounded by
single spaces; otherwise the character is copied verbatim. -/
def processF : Nat → List Char → List Char
  | 0, _ => []
  | _, [] => []
  | g + 1, c :: cs =>
    if isSymPath [c] then
      match cs with
      | c2 :: cs2 =>
        if isSymPath [c, c2] then
          match cs2 with
          | c3 :: cs3 =>
            if isSymPath [c, c2, c3] then
              ' ' :: c :: c2 :: c3 :: ' ' :: processF g cs3
            else ' ' :: c :: c2 :: ' ' :: processF g cs2
          | [] => ' ' :: c :: c2 :: ' ' :: processF g cs2
        else ' ' :: c :: ' ' :: processF g cs
      | [] => ' ' :: c :: ' ' :: processF g cs
    else c :: processF g cs

/-- `process` at its natural fuel: every step consumes at least one
character and one unit of fuel, so the length of the input is enough. -/
def processC (cs : List Char) : List Char := processF cs.length cs

/-- The whitespace tokenizer applied after `process` (an external
collaborator in the spec: split on whitespace, dropping empty pieces).
`acc` carries the characters of the current token in reverse. -/
def splitWS : List Char → List Char → List String
  | [], acc => if acc.isEmpty then [] else [String.mk acc.reverse]
  | c :: cs, acc =>
    if c = ' ' then
      if acc.isEmpty then splitWS cs []
      else String.mk acc.reverse :: splitWS cs []
    else splitWS cs (c :: acc)

/-- `process` then whitespace-split: the token buffer for a raw input. -/
def tokenize (s : String) : List String := splitWS (processC s.data) []

/-- Parser outcomes other than success: `parseEx` is `ParseException`
(application of a non-applicable head); `unexpected tok` is
`UnexpectedTokenException` on a concrete token (mismatched expectation or
trailing input); `outOfRange` is the `UnexpectedTokenException` raised by
`token()` when the buffer is exhausted; `fuelOut` only signals insufficient
fuel of this embedding, never a behavior of the source. -/
inductive PErr where
  | parseEx
  | unexpected (tok : String)
  | outOfRange
  | fuelOut
deriving DecidableEq

/-- `LogicParser.get_BooleanExpression_factory`: the factory for the five
binary operators, testing the operator lists in source order. -/
def boolFactory (op : String) : Option BoolKind :=
  if op = "and" ∨ op = "&" then some .and
  else if op = "or" ∨ op = "|" then some .or
  else if op = "implies" ∨ op = "->" then some .imp
  else if op = "iff" ∨ op = "<->" then some .iff
  else if op = "=" then some .eq
  else none

/-- `isinstance(e, LambdaExpression)`. -/
def isLamE : Expr → Bool
  | .binder .lam _ _ => true
  | _ => false

/-- `isinstance(e, ApplicationExpression)`. -/
def isAppE : Expr → Bool
  | .app _ _ => true
  | _ => false

/-- `LogicParser.attempt_BooleanExpression`: if there is a next token and it
is a boolean/equality operator, consume it and parse the right-hand side as
a full expression; otherwise return the argument unchanged. -/
def attemptBoolean (recParse : List String → Except PErr (Expr × List String))
    (e : Expr) (toks : List String) : Except PErr (Expr × List String) :=
  match toks with
  | [] => .ok (e, toks)
  | op :: rest =>
    match boolFactory op with
    | none => .ok (e, op :: rest)
    | some k =>
      match recParse rest with
      | .error er => .error er
      | .ok (rhs, t1) => .ok (.boolE k e rhs, t1)

/-- The comma loop of the argument-list gatherers (`handle_variable` and the
non-lambda branch of `attempt_ApplicationExpression`): while the next token
is a comma, consume it and parse another argument; then the next token must
be the closing parenthesis. -/
def argsLoop (recParse : List String → Except PErr (Expr × List String)) :
    Nat → List Expr → List String → Except PErr (List Expr × List String)
  | 0, _, _ => .error .fuelOut
  | g + 1, args, toks =>
    match toks with
    | [] => .error .outOfRange
    | t0 :: rest =>
      if t0 = "," then
        match recParse rest with
        | .error er => .error er
        | .ok (a, t1) => argsLoop recParse g (args ++ [a]) t1
      else if t0 = ")" then .ok (args, rest)
      else .error (.unexpected t0)

/-- Gather a parenthesized argument list (the opening parenthesis already
consumed): empty if the next token closes immediately, else one expression
followed by the comma loop; consumes the closing parenthesis. -/
def gatherArgs (recParse : List String → Except PErr (Expr × List String))
    (g : Nat) (toks : List String) : Except PErr (List Expr × List String) :=
  match toks with
  | [] => .error .outOfRange
  | t0 :: rest =>
    if t0 = ")" then .ok ([], rest)
    else
      match recParse (t0 :: rest) with
      | .error er => .error er
      | .ok (a, t1) => argsLoop recParse g [a] t1

/-- The comma loop of the lambda branch of `attempt_ApplicationExpression`:
each argument becomes a separate one-argument application around the
accumulator (curried application). -/
def lamArgsLoop (recParse : List String → Except PErr (Expr × List String)) :
    Nat → Expr → List String → Except PErr (Expr × List String)
  | 0, _, _ => .error .fuelOut
  | g + 1, accum, toks =>
    match toks with
    | [] => .error .outOfRange
    | t0 :: rest =>
      if t0 = "," then
        match recParse rest with
        | .error er => .error er
        | .ok (a, t1) => lamArgsLoop recParse g (.app accum [a]) t1
      else if t0 = ")" then .ok (accum, rest)
      else .error (.unexpected t0)

/-- The lambda branch of `attempt_ApplicationExpression` (the opening
parenthesis already consumed): if the list is empty the accumulator is
returned untouched; otherwise each argument wraps it in a one-argument
application; consumes the closing parenthesis. -/
def lamArgs (recParse : List String → Except PErr (Expr × List String))
    (g : Nat) (accum : Expr) (toks : List String) : Except PErr (Expr × List String) :=
  match toks with
  | [] => .error .outOfRange
  | t0 :: rest =>
    if t0 = ")" then .ok (accum, rest)
    else
      match recParse (t0 :: rest) with
      | .error er => .error er
      | .ok (a, t1) => lamArgsLoop recParse g (.app accum [a]) t1

/-- `LogicParser.attempt_ApplicationExpression`: while the next token opens a
parenthesis, the expression is applied to the parenthesized arguments; a
head that is neither a `LambdaExpression` nor an `ApplicationExpression`
raises `ParseException`; a lambda head is applied one argument at a time
(curried), any other permitted head receives the whole argument list. -/
def attemptApp (recParse : List String → Except PErr (Expr × List String)) :
    Nat → Expr → List String → Except PErr (Expr × List String)
  | 0, _, _ => .error .fuelOut
  | g + 1, e, toks =>
    if toks.head? = some "(" then
      if isLamE e then
        match lamArgs recParse g e toks.tail with
        | .error er => .error er
        | .ok (retEx, t1) => attemptApp recParse g retEx t1
      else if isAppE e then
        match gatherArgs recParse g toks.tail with
        | .error er => .error er
        | .ok (args, t1) => attemptApp recParse g (.app e args) t1
      else .error .parseEx
    else .ok (e, toks)

/-- `LogicParser.handle_variable`: a variable token followed by `(` begins an
application (arguments gathered, then an attempted boolean expression);
otherwise it is a solo variable, returned as-is. -/
def handleVariable (recParse : List String → Except PErr (Expr × List String))
    (g : Nat) (tok : String) (toks : List String) : Except PErr (Expr × List String) :=
  if toks.head? = some "(" then
    match gatherArgs recParse g toks.tail with
    | .error er => .error er
    | .ok (args, t1) => attemptBoolean recParse (.app (.var tok) args) t1
  else .ok (.var tok, toks)

/-- The variable-collection loop of `handle_lambda`: collect variable tokens;
the following token must be the dot; a lambda symbol directly after the dot
continues collecting into the same list (`\x.\y.M == \x y.M`). -/
def lamGroups : Nat → List String → List String → Except PErr (List String × List String)
  | 0, _, _ => .error .fuelOut
  | g + 1, vars, toks =>
    match toks with
    | [] => .error .outOfRange
    | t0 :: rest =>
      if isVarTok t0 then lamGroups g (vars ++ [t0]) rest
      else if t0 = "." then
        match rest with
        | [] => .error .outOfRange
        | t1 :: rest2 =>
          if t1 = "\\" then lamGroups g vars rest2
          else .ok (vars, t1 :: rest2)
      else .error (.unexpected t0)

/-- `LogicParser.handle_lambda` (the lambda token already consumed): the
first variable token is taken unconditionally, further ones while the next
token is a variable; after the body, wrap the collected variables innermost
last, then attempt an application and then a boolean expression. -/
def handleLambda (recParse : List String → Except PErr (Expr × List String))
    (g : Nat) (toks : List String) : Except PErr (Expr × List String) :=
  match toks with
  | [] => .error .outOfRange
  | v0 :: rest =>
    match lamGroups g [v0] rest with
    | .error er => .error er
    | .ok (vars, t1) =>
      match recParse t1 with
      | .error er => .error er
      | .ok (body, t2) =>
        let accum := vars.foldr (fun v acc => .binder .lam v acc) body
        match attemptApp recParse g accum t2 with
        | .error er => .error er
        | .ok (a2, t3) => attemptBoolean recParse a2 t3

/-- The variable-collection loop of `handle_quant`: collect variable tokens
while the next token is a variable; the following token must be the dot. -/
def quantVars : Nat → List String → List String → Except PErr (List String × List String)
  | 0, _, _ => .error .fuelOut
  | g + 1, vars, toks =>
    match toks with
    | [] => .error .outOfRange
    | t0 :: rest =>
      if isVarTok t0 then quantVars g (vars ++ [t0]) rest
      else if t0 = "." then .ok (vars, rest)
      else .error (.unexpected t0)

/-- `LogicParser.handle_quant` (the quantifier token consumed and passed in):
`some`/`exists` build `ExistsExpression`, `all` builds `AllExpression`; the
first variable token is taken unconditionally; after the body, wrap the
variables innermost last and attempt a boolean expression. -/
def handleQuant (recParse : List String → Except PErr (Expr × List String))
    (g : Nat) (tok : String) (toks : List String) : Except PErr (Expr × List String) :=
  let factory : BinderKind := if tok = "some" ∨ tok = "exists" then .ex else .all
  match toks with
  | [] => .error .outOfRange
  | v0 :: rest =>
    match quantVars g [v0] rest with
    | .error er => .error er
    | .ok (vars, t1) =>
      match recParse t1 with
      | .error er => .error er
      | .ok (term, t2) =>
        let accum := vars.foldr (fun v acc => .binder factory v acc) term
        attemptBoolean recParse accum t2

/-- `LogicParser.handle_open` (the opening parenthesis already consumed):
parse an expression, attempt a boolean expression, require the closing
parenthesis, then attempt an application. -/
def handleOpen (recParse : List String → Except PErr (Expr × List String))
    (g : Nat) (toks : List String) : Except PErr (Expr × List String) :=
  match recParse toks with
  | .error er => .error er
  | .ok (e, t1) =>
    match attemptBoolean recParse e t1 with
    | .error er => .error er
    | .ok (e2, t2) =>
      match t2 with
      | [] => .error .outOfRange
      | t0 :: rest =>
        if t0 = ")" then attemptApp recParse g e2 rest
        else .error (.unexpected t0)

/-- One dispatch step of `LogicParser.parse_Expression`: a variable token, a
negation, a lambda, a quantifier, or an opening parenthesis; anything else
is an unexpected token. -/
def parseStep (recParse : List String → Except PErr (Expr × List String))
    (g : Nat) (toks : List String) : Except PErr (Expr × List String) :=
  match toks with
  | [] => .error .outOfRange
  | tok :: rest =>
    if isVarTok tok then handleVariable recParse g tok rest
    else if tok = "not" ∨ tok = "-" then
      match recParse rest with
      | .error er => .error er
      | .ok (e, t1) => .ok (.neg e, t1)
    else if tok = "\\" then handleLambda recParse g rest
    else if tok = "some" ∨ tok = "exists" ∨ tok = "all" then handleQuant recParse g tok rest
    else if tok = "(" then handleOpen recParse g rest
    else .error (.unexpected tok)

/-- Fueled `LogicParser.parse_Expression` over a token buffer, returning the
parsed expression and the remaining tokens. -/
def parseExpressionF : Nat → List String → Except PErr (Expr × List String)
  | 0, _ => .error .fuelOut
  | f + 1, toks => parseStep (parseExpressionF f) f toks

/-- `LogicParser.parse`: preprocess and tokenize the input, parse one
expression, and fail on trailing tokens.  Fuel 200 is far more than any
input in this development consumes; fuel exhaustion would surface as
`.error .fuelOut`, distinct from every behavior of the source. -/
def parseStr (s : String) : Except PErr Expr :=
  match parseExpressionF 200 (tokenize s) with
  | .ok (e, []) => .ok e
  | .ok (_, t :: _) => .error (.unexpected t)
  | .error er => .error er

/-- List part of the `App.args`-nonempty invariant check. -/
def appsNEList (rec : Expr → Option Bool) : List Expr → Option Bool
  | [] => some true
  | a :: as =>
    match rec a with
    | none => none
    | some r1 =>
      match appsNEList rec as with
      | none => none
      | some r2 => some (r1 && r2)

/-- Fueled check of the data-model invariant "`App.args` is non-empty" on
every application node of an expression. -/
def appsNEF : Nat → Expr → Option Bool
  | 0, _ => none
  | f + 1, e =>
    match e with
    | .var _ => some true
    | .app fn args =>
      match appsNEF f fn with
      | none => none
      | some r1 =>
        match appsNEList (appsNEF f) args with
        | none => none
        | some r2 => some (!args.isEmpty && r1 && r2)
    | .binder _ _ t => appsNEF f t
    | .neg t => appsNEF f t
    | .boolE _ a b =>
      match appsNEF f a with
      | none => none
      | some r1 =>
        match appsNEF f b with
        | none => none
        | some r2 => some (r1 && r2)

/-- Parse an input, `simplify` the result from counter state `0`, and print
it: the pipeline of the source's demo, used to check this embedding against
the seed scenarios. -/
def parseSimplifyStr (s : String) : Option String :=
  match parseStr s with
  | .error _ => none
  | .ok e =>
    match simplifyF 100 e 0 with
    | none => none
    | some (e1, _) => strF 100 e1

/-! ## Fuel coverage: membership, monotonicity, existence -/

theorem shapeOkList_mem {rec : Expr → Bool} :
    ∀ {l : List Expr}, shapeOkList rec l = true → ∀ {a : Expr}, a ∈ l → rec a = true := by
  intro l
  induction l with
  | nil => intro _ a ha; cases ha
  | cons b bs ih =>
    intro h a ha
    simp only [shapeOkList, Bool.and_eq_true] at h
    cases ha with
    | head => exact h.1
    | tail _ hm => exact ih h.2 hm

theorem shapeOkList_of_impl {rec1 rec2 : Expr → Bool}
    (h : ∀ a, rec1 a = true → rec2 a = true) :
    ∀ l, shapeOkList rec1 l = true → shapeOkList rec2 l = true := by
  intro l
  induction l with
  | nil => intro _; rfl
  | cons b bs ih =>
    intro hl
    simp only [shapeOkList, Bool.and_eq_true] at hl ⊢
    exact ⟨h _ hl.1, ih hl.2⟩

theorem shapeOk_mono : ∀ f g e, shapeOk f e = true → f ≤ g → shapeOk g e = true := by
  intro f
  induction f with
  | zero => intro g e h _; simp [shapeOk] at h
  | succ f ih =>
    intro g e h hle
    obtain ⟨g, rfl⟩ : ∃ g2, g = g2 + 1 := ⟨g - 1, by omega⟩
    cases e with
    | var u => simp [shapeOk]
    | app fn args =>
      simp only [shapeOk, Bool.and_eq_true] at h ⊢
      exact ⟨ih _ _ h.1 (by omega),
        shapeOkList_of_impl (fun a ha => ih _ a ha (by omega)) _ h.2⟩
    | binder k u t =>
      simp only [shapeOk] at h ⊢
      exact ih _ _ h (by omega)
    | neg t =>
      simp only [shapeOk] at h ⊢
      exact ih _ _ h (by omega)
    | boolE k a b =>
      simp only [shapeOk, Bool.and_eq_true] at h ⊢
      exact ⟨ih _ _ h.1 (by omega), ih _ _ h.2 (by omega)⟩

theorem shapeOkList_mono {f g : Nat} (hle : f ≤ g) :
    ∀ l, shapeOkList (shapeOk f) l = true → shapeOkList (shapeOk g) l = true :=
  shapeOkList_of_impl (fun a ha => shapeOk_mono f g a ha hle)

/-- Sufficient fuel always exists: the recursion pattern of every expression
is covered by some fuel. -/
theorem shapeOk_exists : ∀ e : Expr, ∃ f, shapeOk f e = true := by
  intro e
  refine Expr.rec (motive_1 := fun e => ∃ f, shapeOk f e = true)
    (motive_2 := fun l => ∃ f, shapeOkList (shapeOk f) l = true)
    ?_ ?_ ?_ ?_ ?_ ?_ ?_ e
  · intro u; exact ⟨1, rfl⟩
  · intro fn args ⟨f1, h1⟩ ⟨f2, h2⟩
    refine ⟨max f1 f2 + 1, ?_⟩
    simp only [shapeOk, Bool.and_eq_true]
    exact ⟨shapeOk_mono f1 _ fn h1 (by omega), shapeOkList_mono (by omega) _ h2⟩
  · intro k v body ⟨f1, h1⟩
    exact ⟨f1 + 1, h1⟩
  · intro body ⟨f1, h1⟩
    exact ⟨f1 + 1, h1⟩
  · intro k a b ⟨f1, h1⟩ ⟨f2, h2⟩
    refine ⟨max f1 f2 + 1, ?_⟩
    simp only [shapeOk, Bool.and_eq_true]
    exact ⟨shapeOk_mono f1 _ a h1 (by omega), shapeOk_mono f2 _ b h2 (by omega)⟩
  · exact ⟨1, rfl⟩
  · intro a as ⟨f1, h1⟩ ⟨f2, h2⟩
    refine ⟨max f1 f2, ?_⟩
    simp only [shapeOkList, Bool.and_eq_true]
    exact ⟨shapeOk_mono f1 _ a h1 (by omega), shapeOkList_mono (by omega) _ h2⟩

/-! ## Substituting a variable for a variable preserves the recursion shape -/

theorem replaceList_shape {rec : Expr → Nat → Option (Expr × Nat)}
    (hrec : ∀ a cc a1 cc1, rec a cc = some (a1, cc1) → ∀ g, shapeOk g a1 = shapeOk g a) :
    ∀ l c l1 c1, replaceList rec l c = some (l1, c1) →
      ∀ g, shapeOkList (shapeOk g) l1 = shapeOkList (shapeOk g) l := by
  intro l
  induction l with
  | nil =>
    intro c l1 c1 h g
    simp only [replaceList, Option.some.injEq, Prod.mk.injEq] at h
    obtain ⟨h1, _⟩ := h
    subst h1; rfl
  | cons a as ih =>
    intro c l1 c1 h g
    simp only [replaceList] at h
    split at h
    · exact absurd h (by simp)
    · rename_i a1 c2 heq
      split at h
      · exact absurd h (by simp)
      · rename_i l2 c3 heq2
        simp only [Option.some.injEq, Prod.mk.injEq] at h
        obtain ⟨h1, _⟩ := h
        subst h1
        simp only [shapeOkList]
        rw [hrec a c a1 c2 heq g, ih _ _ _ heq2 g]

theorem replaceF_shape :
    ∀ f t v w fvw rb c t1 c1,
      replaceF f t v (.var w) fvw rb c = some (t1, c1) →
      ∀ g, shapeOk g t1 = shapeOk g t := by
  intro f
  induction f with
  | zero => intro t v w fvw rb c t1 c1 h; simp [replaceF] at h
  | succ f ih =>
    intro t v w fvw rb c t1 c1 h g
    cases t with
    | var u =>
      simp only [replaceF, Option.some.injEq, Prod.mk.injEq] at h
      obtain ⟨h1, _⟩ := h
      subst h1
      split <;> cases g <;> simp [shapeOk]
    | app fn args =>
      simp only [replaceF] at h
      split at h
      · exact absurd h (by simp)
      · rename_i fn1 c2 heq
        split at h
        · exact absurd h (by simp)
        · rename_i args1 c3 heq2
          simp only [Option.some.injEq, Prod.mk.injEq] at h
          obtain ⟨h1, _⟩ := h
          subst h1
          cases g with
          | zero => simp [shapeOk]
          | succ g =>
            simp only [shapeOk]
            rw [ih _ _ _ _ _ _ _ _ heq g,
              replaceList_shape (fun a cc a1 cc1 hh => ih a v w fvw rb cc a1 cc1 hh) _ _ _ _ heq2 g]
    | binder k u t0 =>
      simp only [replaceF] at h
      split at h
      · -- u = v
        split at h
        · -- replace_bound
          split at h
          · exact absurd h (by simp)
          · rename_i t2 c2 heq
            simp only [Option.some.injEq, Prod.mk.injEq] at h
            obtain ⟨h1, _⟩ := h
            subst h1
            cases g with
            | zero => simp [shapeOk]
            | succ g => simp only [shapeOk, newBinderName]; exact ih _ _ _ _ _ _ _ _ heq g
        · simp only [Option.some.injEq, Prod.mk.injEq] at h
          obtain ⟨h1, _⟩ := h
          subst h1; rfl
      · -- u ≠ v
        split at h
        · -- capture: alpha-convert first
          split at h
          · exact absurd h (by simp)
          · rename_i t2 c2 heq
            split at h
            · exact absurd h (by simp)
            · rename_i t3 c3 heq2
              simp only [Option.some.injEq, Prod.mk.injEq] at h
              obtain ⟨h1, _⟩ := h
              subst h1
              cases g with
              | zero => simp [shapeOk]
              | succ g =>
                simp only [shapeOk]
                rw [ih _ _ _ _ _ _ _ _ heq2 g, ih _ _ _ _ _ _ _ _ heq g]
        · split at h
          · exact absurd h (by simp)
          · rename_i t2 c2 heq
            simp only [Option.some.injEq, Prod.mk.injEq] at h
            obtain ⟨h1, _⟩ := h
            subst h1
            cases g with
            | zero => simp [shapeOk]
            | succ g => simp only [shapeOk]; exact ih _ _ _ _ _ _ _ _ heq g
    | neg t0 =>
      simp only [replaceF] at h
      split at h
      · exact absurd h (by simp)
      · rename_i t2 c2 heq
        simp only [Option.some.injEq, Prod.mk.injEq] at h
        obtain ⟨h1, _⟩ := h
        subst h1
        cases g with
        | zero => simp [shapeOk]
        | succ g => simp only [shapeOk]; exact ih _ _ _ _ _ _ _ _ heq g
    | boolE k a b =>
      simp only [replaceF] at h
      split at h
      · exact absurd h (by simp)
      · rename_i a1 c2 heq
        split at h
        · exact absurd h (by simp)
        · rename_i b1 c3 heq2
          simp only [Option.some.injEq, Prod.mk.injEq] at h
          obtain ⟨h1, _⟩ := h
          subst h1
          cases g with
          | zero => simp [shapeOk]
          | succ g =>
            simp only [shapeOk]
            rw [ih _ _ _ _ _ _ _ _ heq g, ih _ _ _ _ _ _ _ _ heq2 g]

/-! ## Adequacy: with covering fuel the total operations return a value -/

theorem replaceList_isSome {rec : Expr → Nat → Option (Expr × Nat)} :
    ∀ l : List Expr, (∀ a ∈ l, ∀ cc, (rec a cc).isSome) →
      ∀ c, (replaceList rec l c).isSome := by
  intro l
  induction l with
  | nil => intro _ c; simp [replaceList]
  | cons a as ih =>
    intro hrec c
    obtain ⟨⟨a1, c1⟩, heq⟩ := Option.isSome_iff_exists.mp (hrec a (by simp) c)
    obtain ⟨⟨l2, c2⟩, heq2⟩ :=
      Option.isSome_iff_exists.mp (ih (fun b hb cc => hrec b (by simp [hb]) cc) c1)
    simp [replaceList, heq, heq2]

theorem replaceF_isSome :
    ∀ f e v x fvx rb c, shapeOk f e = true → (replaceF f e v x fvx rb c).isSome := by
  intro f
  induction f with
  | zero => intro e v x fvx rb c h; simp [shapeOk] at h
  | succ f ih =>
    intro e v x fvx rb c h
    cases e with
    | var u => simp [replaceF]
    | app fn args =>
      simp only [shapeOk, Bool.and_eq_true] at h
      obtain ⟨⟨fn1, c1⟩, heq⟩ := Option.isSome_iff_exists.mp (ih fn v x fvx rb c h.1)
      obtain ⟨⟨args1, c2⟩, heq2⟩ := Option.isSome_iff_exists.mp
        (replaceList_isSome args
          (fun a ha cc => ih a v x fvx rb cc (shapeOkList_mem h.2 ha)) c1)
      simp [replaceF, heq, heq2]
    | binder k u t =>
      simp only [shapeOk] at h
      by_cases huv : u = v
      · by_cases hrb : rb
        · obtain ⟨⟨t1, c1⟩, heq⟩ := Option.isSome_iff_exists.mp (ih t v x fvx true c h)
          simp [replaceF, huv, hrb, heq]
        · simp [replaceF, huv, hrb]
      · by_cases hcap : u ∈ fvx
        · obtain ⟨⟨t1, c1⟩, heq⟩ := Option.isSome_iff_exists.mp
            (ih t u (.var (zname (c + 1))) [zname (c + 1)] true (c + 1) h)
          have hsh : shapeOk f t1 = true := by
            rw [replaceF_shape f t u (zname (c + 1)) [zname (c + 1)] true (c + 1) t1 c1 heq f]
            exact h
          obtain ⟨⟨t2, c2⟩, heq2⟩ := Option.isSome_iff_exists.mp (ih t1 v x fvx rb c1 hsh)
          simp [replaceF, huv, hcap, heq, heq2]
        · obtain ⟨⟨t1, c1⟩, heq⟩ := Option.isSome_iff_exists.mp (ih t v x fvx rb c h)
          simp [replaceF, huv, hcap, heq]
    | neg t =>
      simp only [shapeOk] at h
      obtain ⟨⟨t1, c1⟩, heq⟩ := Option.isSome_iff_exists.mp (ih t v x fvx rb c h)
      simp [replaceF, heq]
    | boolE k a b =>
      simp only [shapeOk, Bool.and_eq_true] at h
      obtain ⟨⟨a1, c1⟩, heq⟩ := Option.isSome_iff_exists.mp (ih a v x fvx rb c h.1)
      obtain ⟨⟨b1, c2⟩, heq2⟩ := Option.isSome_iff_exists.mp (ih b v x fvx rb c1 h.2)
      simp [replaceF, heq, heq2]

theorem freeList_isSome {rec : Expr → Option (List String)} :
    ∀ l : List Expr, (∀ a ∈ l, (rec a).isSome) → (freeList rec l).isSome := by
  intro l
  induction l with
  | nil => intro _; simp [freeList]
  | cons a as ih =>
    intro hrec
    obtain ⟨l1, heq⟩ := Option.isSome_iff_exists.mp (hrec a (by simp))
    obtain ⟨l2, heq2⟩ := Option.isSome_iff_exists.mp (ih (fun b hb => hrec b (by simp [hb])))
    simp [freeList, heq, heq2]

theorem freeVarsF_isSome : ∀ f e, shapeOk f e = true → (freeVarsF f e).isSome := by
  intro f
  induction f with
  | zero => intro e h; simp [shapeOk] at h
  | succ f ih =>
    intro e h
    cases e with
    | var u => simp [freeVarsF]
    | app fn args =>
      simp only [shapeOk, Bool.and_eq_true] at h
      obtain ⟨l1, heq⟩ := Option.isSome_iff_exists.mp (ih fn h.1)
      obtain ⟨l2, heq2⟩ := Option.isSome_iff_exists.mp
        (freeList_isSome args (fun a ha => ih a (shapeOkList_mem h.2 ha)))
      simp [freeVarsF, heq, heq2]
    | binder k u t =>
      simp only [shapeOk] at h
      obtain ⟨l1, heq⟩ := Option.isSome_iff_exists.mp (ih t h)
      simp [freeVarsF, heq]
    | neg t =>
      simp only [shapeOk] at h
      exact ih t h
    | boolE k a b =>
      simp only [shapeOk, Bool.and_eq_true] at h
      obtain ⟨l1, heq⟩ := Option.isSome_iff_exists.mp (ih a h.1)
      obtain ⟨l2, heq2⟩ := Option.isSome_iff_exists.mp (ih b h.2)
      simp [freeVarsF, heq, heq2]

theorem beqList_isSome {rec : Expr → Expr → Nat → Option (Bool × Nat)} :
    ∀ l1 l2 : List Expr,
      (∀ a ∈ l1, ∀ b ∈ l2, ∀ cc, (rec a b cc).isSome) →
      ∀ c, (beqList rec l1 l2 c).isSome := by
  intro l1
  induction l1 with
  | nil => intro l2 _ c; cases l2 <;> simp [beqList]
  | cons a as ih =>
    intro l2 hrec c
    cases l2 with
    | nil => simp [beqList]
    | cons b bs =>
      obtain ⟨⟨r, c1⟩, heq⟩ := Option.isSome_iff_exists.mp (hrec a (by simp) b (by simp) c)
      by_cases hr : r = true
      · subst hr
        obtain ⟨⟨r2, c2⟩, heq2⟩ := Option.isSome_iff_exists.mp
          (ih bs (fun p hp q hq cc => hrec p (by simp [hp]) q (by simp [hq]) cc) c1)
        simp [beqList, heq, heq2]
      · have : r = false := by simpa using hr
        subst this
        simp [beqList, heq]

theorem beqF_isSome :
    ∀ f a b c, shapeOk f a = true → shapeOk f b = true → (beqF f a b c).isSome := by
  intro f
  induction f with
  | zero => intro a b c h _; simp [shapeOk] at h
  | succ f ih =>
    intro a b c ha hb
    cases a with
    | var u => cases b <;> simp [beqF]
    | app fn args =>
      cases b with
      | app fn2 args2 =>
        simp only [shapeOk, Bool.and_eq_true] at ha hb
        obtain ⟨⟨r, c1⟩, heq⟩ := Option.isSome_iff_exists.mp (ih fn fn2 c ha.1 hb.1)
        by_cases hr : r = true
        · subst hr
          obtain ⟨⟨r2, c2⟩, heq2⟩ := Option.isSome_iff_exists.mp
            (beqList_isSome args args2
              (fun p hp q hq cc =>
                ih p q cc (shapeOkList_mem ha.2 hp) (shapeOkList_mem hb.2 hq)) c1)
          simp [beqF, heq, heq2]
        · have : r = false := by simpa using hr
          subst this
          simp [beqF, heq]
      | var _ => simp [beqF]
      | binder _ _ _ => simp [beqF]
      | neg _ => simp [beqF]
      | boolE _ _ _ => simp [beqF]
    | binder k u t =>
      cases b with
      | binder k2 u2 t2 =>
        simp only [shapeOk] at ha hb
        by_cases hk : k = k2
        · by_cases hu : u = u2
          · obtain ⟨⟨r, c1⟩, heq⟩ := Option.isSome_iff_exists.mp (ih t t2 c ha hb)
            simp [beqF, hk, hu, heq]
          · obtain ⟨⟨t2r, c1⟩, heq⟩ := Option.isSome_iff_exists.mp
              (replaceF_isSome f t2 u2 (.var u) [u] false c hb)
            have hsh : shapeOk f t2r = true := by
              rw [replaceF_shape f t2 u2 u [u] false c t2r c1 heq f]; exact hb
            obtain ⟨⟨r, c2⟩, heq2⟩ := Option.isSome_iff_exists.mp (ih t t2r c1 ha hsh)
            simp [beqF, hk, hu, heq, heq2]
        · simp [beqF, hk]
      | var _ => simp [beqF]
      | app _ _ => simp [beqF]
      | neg _ => simp [beqF]
      | boolE _ _ _ => simp [beqF]
    | neg t =>
      cases b with
      | neg t2 =>
        simp only [shapeOk] at ha hb
        exact ih t t2 c ha hb
      | var _ => simp [beqF]
      | app _ _ => simp [beqF]
      | binder _ _ _ => simp [beqF]
      | boolE _ _ _ => simp [beqF]
    | boolE k x y =>
      cases b with
      | boolE k2 x2 y2 =>
        simp only [shapeOk, Bool.and_eq_true] at ha hb
        by_cases hk : k = k2
        · obtain ⟨⟨r, c1⟩, heq⟩ := Option.isSome_iff_exists.mp (ih x x2 c ha.1 hb.1)
          by_cases hr : r = true
          · subst hr
            obtain ⟨⟨r2, c2⟩, heq2⟩ := Option.isSome_iff_exists.mp (ih y y2 c1 ha.2 hb.2)
            simp [beqF, hk, heq, heq2]
          · have : r = false := by simpa using hr
            subst this
            simp [beqF, hk, heq]
        · simp [beqF, hk]
      | var _ => simp [beqF]
      | app _ _ => simp [beqF]
      | binder _ _ _ => simp [beqF]
      | neg _ => simp [beqF]

/-! ## Reflexivity of `==` -/

theorem beqList_refl {rec : Expr → Expr → Nat → Option (Bool × Nat)} :
    ∀ l : List Expr, (∀ a ∈ l, ∀ cc, rec a a cc = some (true, cc)) →
      ∀ c, beqList rec l l c = some (true, c) := by
  intro l
  induction l with
  | nil => intro _ c; simp [beqList]
  | cons a as ih =>
    intro hrec c
    have h1 := hrec a (by simp) c
    simp [beqList, h1, ih (fun b hb cc => hrec b (by simp [hb]) cc) c]

theorem beqF_refl : ∀ f e c, shapeOk f e = true → beqF f e e c = some (true, c) := by
  intro f
  induction f with
  | zero => intro e c h; simp [shapeOk] at h
  | succ f ih =>
    intro e c h
    cases e with
    | var u => simp [beqF]
    | app fn args =>
      simp only [shapeOk, Bool.and_eq_true] at h
      have h1 := ih fn c h.1
      simp [beqF, h1,
        beqList_refl args (fun a ha cc => ih a cc (shapeOkList_mem h.2 ha)) c]
    | binder k u t =>
      simp only [shapeOk] at h
      simp [beqF, ih t c h]
    | neg t =>
      simp only [shapeOk] at h
      simp only [beqF]
      exact ih t c h
    | boolE k a b =>
      simp only [shapeOk, Bool.and_eq_true] at h
      have h1 := ih a c h.1
      simp [beqF, h1, ih b c h.2]

/-! ## Success-monotonicity: fuel determines definedness, never the value -/

theorem freeList_mono {rec1 rec2 : Expr → Option (List String)}
    (hrec : ∀ a r, rec1 a = some r → rec2 a = some r) :
    ∀ l r, freeList rec1 l = some r → freeList rec2 l = some r := by
  intro l
  induction l with
  | nil => intro r h; exact h
  | cons a as ih =>
    intro r h
    simp only [freeList] at h ⊢
    split at h
    · exact absurd h (by simp)
    · rename_i l1 heq
      split at h
      · exact absurd h (by simp)
      · rename_i l2 heq2
        have e1 := hrec a l1 heq
        have e2 := ih l2 heq2
        simp only [e1, e2]
        exact h

theorem freeVarsF_mono :
    ∀ f g e r, freeVarsF f e = some r → f ≤ g → freeVarsF g e = some r := by
  intro f
  induction f with
  | zero => intro g e r h; simp [freeVarsF] at h
  | succ f ih =>
    intro g e r h hle
    obtain ⟨g, rfl⟩ : ∃ g2, g = g2 + 1 := ⟨g - 1, by omega⟩
    have hfg : f ≤ g := by omega
    cases e with
    | var u => exact h
    | app fn args =>
      simp only [freeVarsF] at h ⊢
      split at h
      · exact absurd h (by simp)
      · rename_i l1 heq
        split at h
        · exact absurd h (by simp)
        · rename_i l2 heq2
          have e1 := ih g fn l1 heq hfg
          have e2 := freeList_mono (fun a r2 hh => ih g a r2 hh hfg) args l2 heq2
          simp only [e1, e2]
          exact h
    | binder k u t =>
      simp only [freeVarsF] at h ⊢
      split at h
      · exact absurd h (by simp)
      · rename_i l1 heq
        have e1 := ih g t l1 heq hfg
        simp only [e1]
        exact h
    | neg t =>
      simp only [freeVarsF] at h ⊢
      exact ih g t r h hfg
    | boolE k a b =>
      simp only [freeVarsF] at h ⊢
      split at h
      · exact absurd h (by simp)
      · rename_i l1 heq
        split at h
        · exact absurd h (by simp)
        · rename_i l2 heq2
          have e1 := ih g a l1 heq hfg
          have e2 := ih g b l2 heq2 hfg
          simp only [e1, e2]
          exact h

theorem replaceList_mono {rec1 rec2 : Expr → Nat → Option (Expr × Nat)}
    (hrec : ∀ a c r, rec1 a c = some r → rec2 a c = some r) :
    ∀ l c r, replaceList rec1 l c = some r → replaceList rec2 l c = some r := by
  intro l
  induction l with
  | nil => intro c r h; exact h
  | cons a as ih =>
    intro c r h
    simp only [replaceList] at h ⊢
    split at h
    · exact absurd h (by simp)
    · rename_i a1 c1 heq
      split at h
      · exact absurd h (by simp)
      · rename_i l2 c2 heq2
        have e1 := hrec a c (a1, c1) heq
        have e2 := ih c1 (l2, c2) heq2
        simp only [e1, e2]
        exact h

theorem replaceF_mono :
    ∀ f g e v x fvx rb c r,
      replaceF f e v x fvx rb c = some r → f ≤ g → replaceF g e v x fvx rb c = some r := by
  intro f
  induction f with
  | zero => intro g e v x fvx rb c r h; simp [replaceF] at h
  | succ f ih =>
    intro g e v x fvx rb c r h hle
    obtain ⟨g, rfl⟩ : ∃ g2, g = g2 + 1 := ⟨g - 1, by omega⟩
    have hfg : f ≤ g := by omega
    cases e with
    | var u => exact h
    | app fn args =>
      simp only [replaceF] at h ⊢
      split at h
      · exact absurd h (by simp)
      · rename_i fn1 c1 heq
        split at h
        · exact absurd h (by simp)
        · rename_i args1 c2 heq2
          have e1 := ih g fn v x fvx rb c (fn1, c1) heq hfg
          have e2 := replaceList_mono (fun a cc r2 hh => ih g a v x fvx rb cc r2 hh hfg)
            args c1 (args1, c2) heq2
          simp only [e1, e2]
          exact h
    | binder k u t =>
      simp only [replaceF] at h ⊢
      by_cases huv : u = v
      · rw [if_pos huv] at h ⊢
        by_cases hrb : rb = true
        · rw [if_pos hrb] at h ⊢
          split at h
          · exact absurd h (by simp)
          · rename_i t1 c1 heq
            have e1 := ih g t v x fvx true c (t1, c1) heq hfg
            simp only [e1]
            exact h
        · rw [if_neg hrb] at h ⊢
          exact h
      · rw [if_neg huv] at h ⊢
        by_cases hcap : u ∈ fvx
        · rw [if_pos hcap] at h ⊢
          split at h
          · exact absurd h (by simp)
          · rename_i t1 c1 heq
            split at h
            · exact absurd h (by simp)
            · rename_i t2 c2 heq2
              have e1 := ih g t u (.var (zname (c + 1))) [zname (c + 1)] true (c + 1)
                (t1, c1) heq hfg
              have e2 := ih g t1 v x fvx rb c1 (t2, c2) heq2 hfg
              simp only [e1, e2]
              exact h
        · rw [if_neg hcap] at h ⊢
          split at h
          · exact absurd h (by simp)
          · rename_i t1 c1 heq
            have e1 := ih g t v x fvx rb c (t1, c1) heq hfg
            simp only [e1]
            exact h
    | neg t =>
      simp only [replaceF] at h ⊢
      split at h
      · exact absurd h (by simp)
      · rename_i t1 c1 heq
        have e1 := ih g t v x fvx rb c (t1, c1) heq hfg
        simp only [e1]
        exact h
    | boolE k a b =>
      simp only [replaceF] at h ⊢
      split at h
      · exact absurd h (by simp)
      · rename_i a1 c1 heq
        split at h
        · exact absurd h (by simp)
        · rename_i b1 c2 heq2
          have e1 := ih g a v x fvx rb c (a1, c1) heq hfg
          have e2 := ih g b v x fvx rb c1 (b1, c2) heq2 hfg
          simp only [e1, e2]
          exact h

theorem beqList_mono {rec1 rec2 : Expr → Expr → Nat → Option (Bool × Nat)}
    (hrec : ∀ a b c r, rec1 a b c = some r → rec2 a b c = some r) :
    ∀ l1 l2 c r, beqList rec1 l1 l2 c = some r → beqList rec2 l1 l2 c = some r := by
  intro l1
  induction l1 with
  | nil => intro l2 c r h; cases l2 <;> exact h
  | cons a as ih =>
    intro l2 c r h
    cases l2 with
    | nil => exact h
    | cons b bs =>
      simp only [beqList] at h ⊢
      split at h
      · exact absurd h (by simp)
      · rename_i r1 c1 heq
        have e1 := hrec a b c (r1, c1) heq
        simp only [e1]
        by_cases hr : r1 = true
        · rw [if_pos hr] at h ⊢
          exact ih bs c1 r h
        · rw [if_neg hr] at h ⊢
          exact h

theorem beqF_mono :
    ∀ f g a b c r, beqF f a b c = some r → f ≤ g → beqF g a b c = some r := by
  intro f
  induction f with
  | zero => intro g a b c r h; simp [beqF] at h
  | succ f ih =>
    intro g a b c r h hle
    obtain ⟨g, rfl⟩ : ∃ g2, g = g2 + 1 := ⟨g - 1, by omega⟩
    have hfg : f ≤ g := by omega
    cases a with
    | var u => cases b <;> exact h
    | app fn args =>
      cases b with
      | app fn2 args2 =>
        simp only [beqF] at h ⊢
        split at h
        · exact absurd h (by simp)
        · rename_i r1 c1 heq
          have e1 := ih g fn fn2 c (r1, c1) heq hfg
          simp only [e1]
          by_cases hr : r1 = true
          · rw [if_pos hr] at h ⊢
            exact beqList_mono (fun p q cc r2 hh => ih g p q cc r2 hh hfg) args args2 c1 r h
          · rw [if_neg hr] at h ⊢
            exact h
      | var _ => exact h
      | binder _ _ _ => exact h
      | neg _ => exact h
      | boolE _ _ _ => exact h
    | binder k u t =>
      cases b with
      | binder k2 u2 t2 =>
        simp only [beqF] at h ⊢
        by_cases hk : k = k2
        · rw [if_pos hk] at h ⊢
          by_cases hu : u = u2
          · rw [if_pos hu] at h ⊢
            exact ih g t t2 c r h hfg
          · rw [if_neg hu] at h ⊢
            split at h
            · exact absurd h (by simp)
            · rename_i t2r c1 heq
              have e1 := replaceF_mono f g t2 u2 (.var u) [u] false c (t2r, c1) heq hfg
              simp only [e1]
              exact ih g t t2r c1 r h hfg
        · rw [if_neg hk] at h ⊢
          exact h
      | var _ => exact h
      | app _ _ => exact h
      | neg _ => exact h
      | boolE _ _ _ => exact h
    | neg t =>
      cases b with
      | neg t2 =>
        simp only [beqF] at h ⊢
        exact ih g t t2 c r h hfg
      | var _ => exact h
      | app _ _ => exact h
      | binder _ _ _ => exact h
      | boolE _ _ _ => exact h
    | boolE k x y =>
      cases b with
      | boolE k2 x2 y2 =>
        simp only [beqF] at h ⊢
        by_cases hk : k = k2
        · rw [if_pos hk] at h ⊢
          split at h
          · exact absurd h (by simp)
          · rename_i r1 c1 heq
            have e1 := ih g x x2 c (r1, c1) heq hfg
            simp only [e1]
            by_cases hr : r1 = true
            · rw [if_pos hr] at h ⊢
              exact ih g y y2 c1 r h hfg
            · rw [if_neg hr] at h ⊢
              exact h
        · rw [if_neg hk] at h ⊢
          exact h
      | var _ => exact h
      | app _ _ => exact h
      | binder _ _ _ => exact h
      | neg _ => exact h

theorem simplifyList_mono {rec1 rec2 : Expr → Nat → Option (Expr × Nat)}
    (hrec : ∀ a c r, rec1 a c = some r → rec2 a c = some r) :
    ∀ l c r, simplifyList rec1 l c = some r → simplifyList rec2 l c = some r := by
  intro l
  induction l with
  | nil => intro c r h; exact h
  | cons a as ih =>
    intro c r h
    simp only [simplifyList] at h ⊢
    split at h
    · exact absurd h (by simp)
    · rename_i a1 c1 heq
      split at h
      · exact absurd h (by simp)
      · rename_i l2 c2 heq2
        have e1 := hrec a c (a1, c1) heq
        have e2 := ih c1 (l2, c2) heq2
        simp only [e1, e2]
        exact h

theorem simplifyApps_mono {rec1 rec2 : Expr → Nat → Option (Expr × Nat)}
    (hrec : ∀ a c r, rec1 a c = some r → rec2 a c = some r) :
    ∀ g1 g2 accum args c r, simplifyApps rec1 g1 accum args c = some r → g1 ≤ g2 →
      simplifyApps rec2 g2 accum args c = some r := by
  intro g1
  induction g1 with
  | zero => intro g2 accum args c r h; simp [simplifyApps] at h
  | succ g1 ih =>
    intro g2 accum args c r h hle
    obtain ⟨g2, rfl⟩ : ∃ g3, g2 = g3 + 1 := ⟨g2 - 1, by omega⟩
    have hfg : g1 ≤ g2 := by omega
    cases args with
    | nil => exact h
    | cons a rest =>
      cases accum with
      | binder k u t =>
        cases k with
        | lam =>
          simp only [simplifyApps] at h ⊢
          split at h
          · exact absurd h (by simp)
          · rename_i a1 c1 heq
            have e1 := hrec a c (a1, c1) heq
            simp only [e1]
            split at h
            · exact absurd h (by simp)
            · rename_i fva heqf
              have e2 := freeVarsF_mono (g1 + 1) (g2 + 1) a1 fva heqf (by omega)
              simp only [e2]
              split at h
              · exact absurd h (by simp)
              · rename_i t1 c2 heqr
                have e3 := replaceF_mono (g1 + 1) (g2 + 1) t u a1 fva false c1
                  (t1, c2) heqr (by omega)
                simp only [e3]
                split at h
                · exact absurd h (by simp)
                · rename_i t2 c3 heqs
                  have e4 := hrec t1 c2 (t2, c3) heqs
                  simp only [e4]
                  exact ih g2 t2 rest c3 r h hfg
        | ex =>
          simp only [simplifyApps] at h ⊢
          split at h
          · exact absurd h (by simp)
          · rename_i a1 c1 heq
            have e1 := hrec a c (a1, c1) heq
            simp only [e1]
            exact ih g2 _ rest c1 r h hfg
        | all =>
          simp only [simplifyApps] at h ⊢
          split at h
          · exact absurd h (by simp)
          · rename_i a1 c1 heq
            have e1 := hrec a c (a1, c1) heq
            simp only [e1]
            exact ih g2 _ rest c1 r h hfg
      | var u =>
        simp only [simplifyApps] at h ⊢
        split at h
        · exact absurd h (by simp)
        · rename_i a1 c1 heq
          have e1 := hrec a c (a1, c1) heq
          simp only [e1]
          exact ih g2 _ rest c1 r h hfg
      | app fn2 args2 =>
        simp only [simplifyApps] at h ⊢
        split at h
        · exact absurd h (by simp)
        · rename_i a1 c1 heq
          have e1 := hrec a c (a1, c1) heq
          simp only [e1]
          exact ih g2 _ rest c1 r h hfg
      | neg t =>
        simp only [simplifyApps] at h ⊢
        split at h
        · exact absurd h (by simp)
        · rename_i a1 c1 heq
          have e1 := hrec a c (a1, c1) heq
          simp only [e1]
          exact ih g2 _ rest c1 r h hfg
      | boolE k2 x y =>
        simp only [simplifyApps] at h ⊢
        split at h
        · exact absurd h (by simp)
        · rename_i a1 c1 heq
          have e1 := hrec a c (a1, c1) heq
          simp only [e1]
          exact ih g2 _ rest c1 r h hfg

theorem simplifyF_mono :
    ∀ f g e c r, simplifyF f e c = some r → f ≤ g → simplifyF g e c = some r := by
  intro f
  induction f with
  | zero => intro g e c r h; simp [simplifyF] at h
  | succ f ih =>
    intro g e c r h hle
    obtain ⟨g, rfl⟩ : ∃ g2, g = g2 + 1 := ⟨g - 1, by omega⟩
    have hfg : f ≤ g := by omega
    cases e with
    | var u => exact h
    | neg t => exact h
    | binder k u t =>
      simp only [simplifyF] at h ⊢
      split at h
      · exact absurd h (by simp)
      · rename_i t1 c1 heq
        have e1 := ih g t c (t1, c1) heq hfg
        simp only [e1]
        exact h
    | boolE k a b =>
      simp only [simplifyF] at h ⊢
      split at h
      · exact absurd h (by simp)
      · rename_i a1 c1 heq
        split at h
        · exact absurd h (by simp)
        · rename_i b1 c2 heq2
          have e1 := ih g a c (a1, c1) heq hfg
          have e2 := ih g b c1 (b1, c2) heq2 hfg
          simp only [e1, e2]
          exact h
    | app fn args =>
      simp only [simplifyF] at h ⊢
      split at h
      · exact absurd h (by simp)
      · rename_i accum c1 heq
        have e1 := ih g fn c (accum, c1) heq hfg
        simp only [e1]
        split at h
        · rename_i k u t
          exact simplifyApps_mono (fun p cc r2 hh => ih g p cc r2 hh hfg) f g _ args c1 r h hfg
        · rename_i hnotlam
          split at h
          · exact absurd h (by simp)
          · rename_i args1 c2 heq2
            have e2 := simplifyList_mono (fun p cc r2 hh => ih g p cc r2 hh hfg)
              args c1 (args1, c2) heq2
            simp only [e2]
            exact h

theorem processF_nil : ∀ g, processF g [] = [] := by
  intro g; cases g <;> rfl

/-- `process` is insensitive to extra fuel beyond the input length: each
step consumes at least one character and exactly one unit of fuel. -/
theorem processF_stable : ∀ g cs, cs.length ≤ g → processF g cs = processC cs := by
  have key : ∀ g g2 cs, cs.length ≤ g → cs.length ≤ g2 → processF g cs = processF g2 cs := by
    intro g
    induction g with
    | zero =>
      intro g2 cs h _
      have hnil : cs = [] := by
        cases cs with
        | nil => rfl
        | cons a as => simp at h
      subst hnil
      rw [processF_nil, processF_nil]
    | succ g ih =>
      intro g2 cs h h2
      cases cs with
      | nil => rw [processF_nil, processF_nil]
      | cons c cs =>
        simp only [List.length_cons] at h h2
        obtain ⟨g2, rfl⟩ : ∃ g3, g2 = g3 + 1 := ⟨g2 - 1, by omega⟩
        simp only [processF]
        by_cases h1 : isSymPath [c] = true
        · simp only [if_pos h1]
          cases cs with
          | nil => rw [processF_nil, processF_nil]
          | cons c2 cs2 =>
            simp only [List.length_cons] at h h2
            by_cases hp2 : isSymPath [c, c2] = true
            · simp only [if_pos hp2]
              cases cs2 with
              | nil => rw [processF_nil, processF_nil]
              | cons c3 cs3 =>
                simp only [List.length_cons] at h h2
                by_cases hp3 : isSymPath [c, c2, c3] = true
                · simp only [if_pos hp3]
                  rw [ih g2 cs3 (by omega) (by omega)]
                · simp only [if_neg hp3]
                  rw [ih g2 (c3 :: cs3) (by simp only [List.length_cons]; omega)
                    (by simp only [List.length_cons]; omega)]
            · simp only [if_neg hp2]
              rw [ih g2 (c2 :: cs2) (by simp only [List.length_cons]; omega)
                (by simp only [List.length_cons]; omega)]
        · simp only [if_neg h1]
          rw [ih g2 cs (by omega) (by omega)]
  intro g cs h
  exact key g cs.length cs h (le_refl _)

/-! ## The seed scenarios of the spec, as reproduced by this embedding -/

/-- Checks of this embedding against the simplify seed scenarios (spec §8,
rows 1-4, which are the `Test simplify` lines of the source's demo): the
parse-simplify-print pipeline reproduces the expected outputs. -/
theorem demo_simplify_scenarios :
    parseSimplifyStr "\\x.\\y.sees(x,y)(john)(mary)" = some "sees(john,mary)" ∧
    parseSimplifyStr "\\x.\\y.sees(x,y)(john, mary)" = some "sees(john,mary)" ∧
    parseSimplifyStr "exists x.(man(x) & (\\x.exists y.walks(x,y))(x))"
      = some "exists x.(man(x) & exists y.walks(x,y))" ∧
    parseSimplifyStr "((\\P.\\Q.exists x.(P(x) & Q(x)))(\\x.dog(x)))(\\x.bark(x))"
      = some "exists x.(dog(x) & bark(x))" :=
  ⟨rfl, rfl, rfl, rfl⟩

/-- Check of this embedding against seed scenario 5 (the `Test alpha
conversion and binder expression equality` lines of the source's demo):
`exists x.P(x)` alpha-converted to `z` gives `exists z.P(z)`, and the two
compare equal under `==`. -/
theorem demo_alpha_convert_eq :
    alphaConvertF 10 .ex "x" (.app (.var "P") [.var "x"]) "z" 0
      = some (.binder .ex "z" (.app (.var "P") [.var "z"]), 0) ∧
    beqF 10 (.binder .ex "x" (.app (.var "P") [.var "x"]))
        (.binder .ex "z" (.app (.var "P") [.var "z"])) 0 = some (true, 0) :=
  ⟨rfl, rfl⟩

/-! ## Claims -/

/-- Claim C1, counterexample.  The claim asserts that for all `M, e, u, v`
with `u ∈ free(e)` and `u ≠ v`, the binder returned by
`Binder(u, M).replace(v, e, false)` has a bound variable different from `u`
whenever `v ∈ free(M)`.  At `u = "z1"`, `v = "v"`, `M = Var "v"`,
`e = Var "z1"` and counter state `0` all hypotheses hold, yet the
counter-generated fresh name is exactly `"z1"`, so the returned binder's
bound variable is again `u` — and `e`'s free occurrence of `"z1"` is
captured: the result is the identity `\z1.z1`. -/
theorem C1_counterexample :
    freeVarsF 10 (.var "z1") = some ["z1"] ∧
    ("z1" : String) ∈ ["z1"] ∧ ("z1" : String) ≠ "v" ∧
    freeVarsF 10 (.var "v") = some ["v"] ∧ ("v" : String) ∈ ["v"] ∧
    replaceF 10 (.binder .lam "z1" (.var "v")) "v" (.var "z1") ["z1"] false 0
      = some (.binder .lam "z1" (.var "z1"), 1) :=
  ⟨rfl, by decide, by decide, rfl, by decide, rfl⟩

/-- Claim C1 (amended): under the additional hypothesis that `u` is not the
fresh counter-generated name `zname (c+1)` of the entry counter state `c`,
the binder returned by `Binder(u, M).replace(v, e, false)` (with
`u ∈ free(e)`, `u ≠ v`, and `v ∈ free(M)` as in the claim) is alpha-renamed
to `zname (c+1)`, whose bound variable therefore differs from `u`. -/
theorem C1_capture_avoidance_amended :
    ∀ f g h2 k u v M e fvE fvM c,
      shapeOk f M = true →
      freeVarsF g e = some fvE →
      freeVarsF h2 M = some fvM →
      u ∈ fvE → u ≠ v → v ∈ fvM →
      u ≠ zname (c + 1) →
      ∃ M2 c2,
        replaceF (f + 1) (.binder k u M) v e fvE false c
            = some (.binder k (zname (c + 1)) M2, c2) ∧
        zname (c + 1) ≠ u := by
  intro f g h2 k u v M e fvE fvM c hsh hfe hfM hu huv hvM hz
  obtain ⟨⟨t1, c1⟩, heq⟩ := Option.isSome_iff_exists.mp
    (replaceF_isSome f M u (.var (zname (c + 1))) [zname (c + 1)] true (c + 1) hsh)
  have hsh2 : shapeOk f t1 = true := by
    rw [replaceF_shape f M u (zname (c + 1)) [zname (c + 1)] true (c + 1) t1 c1 heq f]
    exact hsh
  obtain ⟨⟨t2, c2⟩, heq2⟩ := Option.isSome_iff_exists.mp
    (replaceF_isSome f t1 v e fvE false c1 hsh2)
  refine ⟨t2, c2, ?_, fun hc => hz hc.symm⟩
  simp [replaceF, huv, hu, heq, heq2]

/-- Claim C1, witness for the amended theorem at `u = "x"`, `v = "y"`,
`M = Var "y"`, `e = Var "x"`, counter `0`: the substitution would capture, so
the binder is renamed to `z1` and the resulting bound variable is not `x`. -/
theorem C1_witness :
    ∃ M2 c2,
      replaceF 2 (.binder .lam "x" (.var "y")) "y" (.var "x") ["x"] false 0
          = some (.binder .lam (zname 1) M2, c2) ∧
      zname 1 ≠ "x" :=
  C1_capture_avoidance_amended 1 5 5 .lam "x" "y" (.var "y") (.var "x") ["x"] ["y"] 0
    rfl rfl rfl (by decide) (by decide) (by decide) (by decide)

/-- Claim C2 evaluated at a failing input.  With
`u = "u"`, `M = \q.f(u, z3)`, `e = (\x.\q.x)(q)` and the counter starting at
`0`, evaluating the two sides of the beta law in Python's order (left side
first, then the right side, then `==`, on the shared counter) gives:
the left side `simplify(App(Lambda(u, M), [e]))` is `\z2.f(\z1.q, z3)`
(counter `2`; the user variable `z3` stays free); `M.replace(u, e, false)`
then alpha-renames the `q`-binder to the fresh name `z3`, capturing the user
variable `z3` that is free in `M`, and the right side simplifies to
`\z3.f(\z4.q, z3)` (counter `4`); the two sides are then not `==` — the beta
law fails on the code. -/
theorem C2_beta_law_failing_eval :
    simplifyF 50
        (.app (.binder .lam "u" (.binder .lam "q" (.app (.var "f") [.var "u", .var "z3"])))
          [.app (.binder .lam "x" (.binder .lam "q" (.var "x"))) [.var "q"]]) 0
      = some (.binder .lam "z2" (.app (.var "f") [.binder .lam "z1" (.var "q"), .var "z3"]), 2) ∧
    freeVarsF 50 (.app (.binder .lam "x" (.binder .lam "q" (.var "x"))) [.var "q"])
      = some ["q"] ∧
    replaceF 50 (.binder .lam "q" (.app (.var "f") [.var "u", .var "z3"])) "u"
        (.app (.binder .lam "x" (.binder .lam "q" (.var "x"))) [.var "q"]) ["q"] false 2
      = some (.binder .lam "z3" (.app (.var "f")
          [.app (.binder .lam "x" (.binder .lam "q" (.var "x"))) [.var "q"], .var "z3"]), 3) ∧
    simplifyF 50 (.binder .lam "z3" (.app (.var "f")
          [.app (.binder .lam "x" (.binder .lam "q" (.var "x"))) [.var "q"], .var "z3"])) 3
      = some (.binder .lam "z3" (.app (.var "f") [.binder .lam "z4" (.var "q"), .var "z3"]), 4) ∧
    beqF 50 (.binder .lam "z2" (.app (.var "f") [.binder .lam "z1" (.var "q"), .var "z3"]))
        (.binder .lam "z3" (.app (.var "f") [.binder .lam "z4" (.var "q"), .var "z3"])) 4
      = some (false, 4) :=
  ⟨rfl, rfl, rfl, rfl, rfl⟩

/-- Claim C3, counterexample.  `==` is not symmetric:
`\x.x == \y.x` is `True` (relabelling `y` with `x` in the body `x` changes
nothing, since the relabelling only touches free occurrences of `y`), but
`\y.x == \x.x` is `False`.  It is also not transitive:
`\x.x == \y.y` and `\y.y == \z.y` hold, but `\x.x == \z.y` does not.
All five comparisons leave the counter untouched. -/
theorem C3_counterexample :
    beqF 10 (.binder .lam "x" (.var "x")) (.binder .lam "y" (.var "x")) 0 = some (true, 0) ∧
    beqF 10 (.binder .lam "y" (.var "x")) (.binder .lam "x" (.var "x")) 0 = some (false, 0) ∧
    beqF 10 (.binder .lam "x" (.var "x")) (.binder .lam "y" (.var "y")) 0 = some (true, 0) ∧
    beqF 10 (.binder .lam "y" (.var "y")) (.binder .lam "z" (.var "y")) 0 = some (true, 0) ∧
    beqF 10 (.binder .lam "x" (.var "x")) (.binder .lam "z" (.var "y")) 0 = some (false, 0) :=
  ⟨rfl, rfl, rfl, rfl, rfl⟩

/-- Claim C3 (amended): of the three claimed properties of `==`, only
reflexivity holds: every expression is `==` to itself (with the counter
unchanged), for every covering fuel — and covering fuel exists for every
expression.  Symmetry and transitivity fail (see the counterexample). -/
theorem C3_eq_reflexive_amended :
    (∀ e : Expr, ∃ f, shapeOk f e = true) ∧
    (∀ f e c, shapeOk f e = true → beqF f e e c = some (true, c)) :=
  ⟨shapeOk_exists, beqF_refl⟩

/-- Claim C3, witness for the amended theorem at `e = exists x.P(x)`. -/
theorem C3_witness :
    (∃ f, shapeOk f (.binder .ex "x" (.app (.var "P") [.var "x"])) = true) ∧
    beqF 3 (.binder .ex "x" (.app (.var "P") [.var "x"]))
        (.binder .ex "x" (.app (.var "P") [.var "x"])) 0 = some (true, 0) :=
  ⟨C3_eq_reflexive_amended.1 _, C3_eq_reflexive_amended.2 3 _ 0 rfl⟩

/-- Claim C4 evaluated at a failing input.  The expression
`e = And(Not(man(x)), tall(x))` is parser-producible (from
`((-man(x)) & tall(x))`), but it prints as `(-man(x) & tall(x))` — negation
is printed without parentheses — and that string reparses as
`Not(And(man(x), tall(x)))`, because the negation branch of
`parse_Expression` parses a full expression (including the boolean
continuation) as its scope.  The reparse is not `==` to `e` in either
direction (the classes differ at the root), so the round-trip fails. -/
theorem C4_roundtrip_failing_eval :
    parseStr "((-man(x)) & tall(x))"
      = .ok (.boolE .and (.neg (.app (.var "man") [.var "x"]))
          (.app (.var "tall") [.var "x"])) ∧
    strF 50 (.boolE .and (.neg (.app (.var "man") [.var "x"]))
          (.app (.var "tall") [.var "x"]))
      = some "(-man(x) & tall(x))" ∧
    parseStr "(-man(x) & tall(x))"
      = .ok (.neg (.boolE .and (.app (.var "man") [.var "x"])
          (.app (.var "tall") [.var "x"]))) ∧
    beqF 50 (.neg (.boolE .and (.app (.var "man") [.var "x"])
          (.app (.var "tall") [.var "x"])))
        (.boolE .and (.neg (.app (.var "man") [.var "x"]))
          (.app (.var "tall") [.var "x"])) 0
      = some (false, 0) ∧
    beqF 50 (.boolE .and (.neg (.app (.var "man") [.var "x"]))
          (.app (.var "tall") [.var "x"]))
        (.neg (.boolE .and (.app (.var "man") [.var "x"])
          (.app (.var "tall") [.var "x"]))) 0
      = some (false, 0) :=
  ⟨rfl, rfl, rfl, rfl, rfl⟩

/-- Claim C5, counterexample.  The claim asserts that `(man(x))(y)` and
`\x.(P(x))(y)` raise a parse error.  In the code,
`attempt_ApplicationExpression` permits a head that is an
`ApplicationExpression`, and `man(x)` and `P(x)` are applications, so both
inputs parse successfully (to nested applications). -/
theorem C5_counterexample :
    parseStr "(man(x))(y)"
      = .ok (.app (.app (.var "man") [.var "x"]) [.var "y"]) ∧
    parseStr "\\x.(P(x))(y)"
      = .ok (.binder .lam "x" (.app (.app (.var "P") [.var "x"]) [.var "y"])) :=
  ⟨rfl, rfl⟩

/-- Claim C5 (amended): the parser rejects the application of a
parenthesized head with `ParseException` exactly when the head is neither a
`LambdaExpression` nor an `ApplicationExpression` — e.g. a solo variable
head `(x)(y)`, a quantified head `(exists x.P(x))(y)`, or a negated head
`(-man(x))(y)`; the claim's two inputs have application heads and parse
successfully. -/
theorem C5_nonapplicable_head_amended :
    parseStr "(x)(y)" = .error .parseEx ∧
    parseStr "(exists x.P(x))(y)" = .error .parseEx ∧
    parseStr "(-man(x))(y)" = .error .parseEx ∧
    parseStr "(man(x))(y)"
      = .ok (.app (.app (.var "man") [.var "x"]) [.var "y"]) ∧
    parseStr "\\x.(P(x))(y)"
      = .ok (.binder .lam "x" (.app (.app (.var "P") [.var "x"]) [.var "y"])) :=
  ⟨rfl, rfl, rfl, rfl, rfl⟩

/-- Claim C6, counterexample.  The claim asserts that a solo variable atom
followed by a boolean operator and an expression parses (e.g. `p & q`).  In
the code, the solo-variable branch of `handle_variable` returns the variable
without attempting a boolean expression, so the operator remains as trailing
input and `parse` raises the unexpected-token error on `&`. -/
theorem C6_counterexample :
    isVarTok "p" = true ∧
    parseStr "q" = .ok (.var "q") ∧
    parseStr "p & q" = .error (.unexpected "&") :=
  ⟨rfl, rfl, rfl⟩

/-- Claim C6 (amended): a solo variable followed by a boolean operator is a
trailing-input parse error at top level; the boolean continuation applies
after an application atom (`p(x) & q`) and inside parentheses (`(p & q)`),
where it yields the connective with the atom on the left. -/
theorem C6_solo_variable_boolop_amended :
    parseStr "p & q" = .error (.unexpected "&") ∧
    parseStr "p(x) & q"
      = .ok (.boolE .and (.app (.var "p") [.var "x"]) (.var "q")) ∧
    parseStr "(p & q)" = .ok (.boolE .and (.var "p") (.var "q")) :=
  ⟨rfl, rfl, rfl⟩

/-- Claim C7, counterexample.  The zero-argument form `f()` is accepted and
produces an `App` node whose argument list is empty, violating the claimed
invariant that every `App` node produced by the parser has non-empty
arguments. -/
theorem C7_counterexample :
    parseStr "f()" = .ok (.app (.var "f") []) ∧
    appsNEF 10 (.app (.var "f") []) = some false :=
  ⟨rfl, rfl⟩

/-- Claim C7 (amended): the parser produces an `App` with an empty argument
list exactly for the zero-argument parenthesized form: `f()` yields
`App(Var "f", [])`, while `f(x)` satisfies the non-emptiness invariant. -/
theorem C7_empty_args_amended :
    parseStr "f()" = .ok (.app (.var "f") []) ∧
    parseStr "f(x)" = .ok (.app (.var "f") [.var "x"]) ∧
    appsNEF 10 (.app (.var "f") [.var "x"]) = some true :=
  ⟨rfl, rfl, rfl⟩

/-- Claim C8 evaluated at a failing input.  `exists x.P(x)` and its
alpha-variant `exists z.P(z)` are `==` (the demo of the source prints
exactly this comparison as `True`), but `__hash__` hashes the printed
`__repr__`, and the two printed representations differ — so equal
expressions get different hashes and hash-based collections do not treat
alpha-variants as the same key. -/
theorem C8_hash_disagrees_eval :
    beqF 20 (.binder .ex "x" (.app (.var "P") [.var "x"]))
        (.binder .ex "z" (.app (.var "P") [.var "z"])) 0 = some (true, 0) ∧
    reprF 20 (.binder .ex "x" (.app (.var "P") [.var "x"]))
      = some "ExistsExpression: exists x.P(x)" ∧
    reprF 20 (.binder .ex "z" (.app (.var "P") [.var "z"]))
      = some "ExistsExpression: exists z.P(z)" ∧
    ("ExistsExpression: exists x.P(x)" : String) ≠ "ExistsExpression: exists z.P(z)" :=
  ⟨rfl, rfl, rfl, by decide⟩

/-- Claim C9: totality of the rewriting operations, and shadowing.  Covering
fuel exists for every expression; with covering fuel, `replace` (for every
variable, substituted expression, free-list, `replace_bound` flag and
counter), `alpha_convert`, `free` and `==` all return a value — they
terminate and never raise.  Shadowing: `Binder(u, M).replace(u, e, false)`
returns the receiver structurally unchanged with the counter untouched. -/
theorem C9_rewriting_total_and_shadowing :
    (∀ e : Expr, ∃ f, shapeOk f e = true) ∧
    (∀ f e v x fvx rb c, shapeOk f e = true → (replaceF f e v x fvx rb c).isSome) ∧
    (∀ f k u t w c, shapeOk f t = true → (alphaConvertF f k u t w c).isSome) ∧
    (∀ f e, shapeOk f e = true → (freeVarsF f e).isSome) ∧
    (∀ f a b c, shapeOk f a = true → shapeOk f b = true → (beqF f a b c).isSome) ∧
    (∀ f k u M e fvx c,
      replaceF (f + 1) (.binder k u M) u e fvx false c = some (.binder k u M, c)) := by
  refine ⟨shapeOk_exists, replaceF_isSome, ?_, freeVarsF_isSome, beqF_isSome, ?_⟩
  · intro f k u t w c h
    obtain ⟨⟨t1, c1⟩, heq⟩ := Option.isSome_iff_exists.mp
      (replaceF_isSome f t u (.var w) [w] true c h)
    simp [alphaConvertF, heq]
  · intro f k u M e fvx c
    simp [replaceF]

/-- Claim C9, witness: the totality statements instantiated at concrete
inputs, and the shadowing equation at `\a.a` with `u = "a"`. -/
theorem C9_witness :
    (∃ f, shapeOk f (.var "a") = true) ∧
    (replaceF 1 (.var "a") "a" (.var "b") ["b"] false 0).isSome ∧
    (alphaConvertF 1 .lam "a" (.var "a") "w" 0).isSome ∧
    (freeVarsF 1 (.var "a")).isSome ∧
    (beqF 1 (.var "a") (.var "b") 0).isSome ∧
    replaceF 2 (.binder .lam "a" (.var "a")) "a" (.var "b") [] false 0
      = some (.binder .lam "a" (.var "a"), 0) :=
  ⟨C9_rewriting_total_and_shadowing.1 _,
   C9_rewriting_total_and_shadowing.2.1 1 _ "a" (.var "b") ["b"] false 0 rfl,
   C9_rewriting_total_and_shadowing.2.2.1 1 .lam "a" (.var "a") "w" 0 rfl,
   C9_rewriting_total_and_shadowing.2.2.2.1 1 _ rfl,
   C9_rewriting_total_and_shadowing.2.2.2.2.1 1 _ _ 0 rfl rfl,
   C9_rewriting_total_and_shadowing.2.2.2.2.2 1 .lam "a" (.var "a") (.var "b") [] 0⟩

/-- Claim C10: a parenthesized argument list after a lambda is curried —
`\x y.sees(x,y)(a,b)` parses to `App(App(Lambda(x, Lambda(y, sees(x,y))), [a]), [b])`
with two one-argument applications — whereas the same list after a variable
head, `sees(a,b)`, parses to a single `App` with the two-element argument
list. -/
theorem C10_curried_lambda_application :
    parseStr "\\x y.sees(x,y)(a,b)"
      = .ok (.app (.app (.binder .lam "x" (.binder .lam "y"
          (.app (.var "sees") [.var "x", .var "y"]))) [.var "a"]) [.var "b"]) ∧
    parseStr "sees(a,b)" = .ok (.app (.var "sees") [.var "a", .var "b"]) :=
  ⟨rfl, rfl⟩

end NLTK

